import Mathlib

/-!
Verification of the `django-i18nfield` core against its specification.

The development shallowly embeds the library's Python sources:

* `strings.py` — `LazyI18nString`: construction (`__init__` via `json.loads` and
  `UserDict.__init__`), resolution (`localize`), truthiness (`__bool__`),
  equality (`__eq__`), and the `LazyGettextProxy` deferred-source adapter.
* `fields.py` — `I18nField.get_prep_value`: serialization through
  `json.dumps(..., sort_keys=True)`.

Python strings are Lean `String`s (lists of unicode scalar values); Python dicts
are insertion-ordered association lists; fallible Python code returns `Except`;
the implicit `None` return of a function body that falls through is `Option`.
-/

namespace I18n

/-- Python truthiness of a translation value: a string is truthy iff non-empty. -/
def truthy (s : String) : Bool := s != ""

/-- The backing mapping of a `LazyI18nString` over the declared locale→text domain:
an insertion-ordered dict from locale code to translated string. -/
abbrev Entries := List (String × String)

/-- `self.data.get(k)`: lookup in the backing dict (first match; real dicts have
unique keys, so first match agrees with dict lookup). -/
def dget (d : Entries) (k : String) : Option String :=
  (d.find? (fun p => p.1 == k)).map Prod.snd

/-- Truthiness of `self.data.get(k)`: key present with a non-empty value. -/
def truthyGet (d : Entries) (k : String) : Bool :=
  ((dget d k).map truthy).getD false

/-- `lng.split('-')[0]`: the substring before the first region separator, i.e. the
base language of a locale code. -/
def pyBase (s : String) : String := ⟨s.data.takeWhile (fun c => c != '-')⟩

/-- Python `s.startswith(p)`. -/
def pyStartsWith (s p : String) : Bool := p.data.isPrefixOf s.data

/-- The `similar` list comprehension of `LazyI18nString.localize`, with Python's
operator precedence: `((loc != "_naive" and loc.startswith(firstpart + "-")) or
firstpart == loc) and loc != lng`, over the dict's keys in insertion order. -/
def similarKeys (d : Entries) (lng firstpart : String) : List String :=
  (d.map Prod.fst).filter fun loc =>
    ((loc != "_naive" && pyStartsWith loc (firstpart ++ "-")) || firstpart == loc) && loc != lng

/-- The body of `LazyI18nString.localize` for a dict-backed instance. `none` models
the implicit `None` returned by a Python function body that falls through (the
`for` loop of the similar-keys branch is the only candidate). -/
def localizeDict (d : Entries) (languageCode lng : String) : Option String :=
  if d.isEmpty then some ""
  else
    let firstpart := pyBase lng
    let similar := similarKeys d lng firstpart
    if truthyGet d lng then dget d lng
    else if truthyGet d firstpart then dget d firstpart
    else if !similar.isEmpty && similar.any (truthyGet d) then
      (similar.find? (truthyGet d)).bind (dget d)
    else if truthyGet d languageCode then dget d languageCode
    else
      match (d.map Prod.snd).filter truthy with
      | [] => some ""
      | v :: _ => some v

/-- Python exceptions that the embedded code can raise. -/
inductive PyExn where
  | valueError
  | typeError
  | attributeError
deriving DecidableEq

/-- The backing content of a `LazyI18nString` (declared domain): either a dict of
locale→text, or a `LazyGettextProxy` wrapping a lazy gettext source string. -/
inductive I18nContent where
  | dictData (d : Entries)
  | proxyData (g : String)

/-- `LazyI18nString.localize(lng)` with `settings.LANGUAGE_CODE = languageCode`.
For a proxy-backed instance the body reaches `self.data.keys()` (the proxy is
truthy, so the `if not self.data` guard does not fire), and `LazyGettextProxy`
defines no `keys` method, hence an `AttributeError`. -/
def localize (c : I18nContent) (languageCode lng : String) : Except PyExn (Option String) :=
  match c with
  | .proxyData _ => .error .attributeError
  | .dictData d => .ok (localizeDict d languageCode lng)

/-- `LazyI18nString.__bool__`: empty dict is falsy; a dict is truthy iff some value
is truthy; non-dict (proxy) data is truthy. -/
def lazyBool : I18nContent → Bool
  | .dictData d => if d.isEmpty then false else (d.map Prod.snd).any truthy
  | .proxyData _ => true

/-- The similar-keys set as the specification words it: keys other than the
requested locale and other than the `"_naive"` sentinel whose own base equals the
requested locale's base, in insertion order. -/
def specSimilar (d : Entries) (lng : String) : List String :=
  (d.map Prod.fst).filter fun k => k != lng && k != "_naive" && pyBase k == pyBase lng

/-- The first truthy value of the mapping in insertion order, or `""`. -/
def firstTruthyValue (d : Entries) : String :=
  ((d.map Prod.snd).filter truthy).headD ""

/-- The resolution cascade exactly as the specification states it: (empty → "");
(a) value at the requested locale if truthy; (b) value at its base if truthy;
(c) first truthy value among the similar keys; (d) value at the system default
locale if truthy; (e) first truthy value anywhere; (f) `""`. -/
def specLocalize (d : Entries) (languageCode lng : String) : String :=
  if d.isEmpty then ""
  else if truthyGet d lng then (dget d lng).getD ""
  else if truthyGet d (pyBase lng) then (dget d (pyBase lng)).getD ""
  else
    match (specSimilar d lng).find? (truthyGet d) with
    | some k => (dget d k).getD ""
    | none =>
      if truthyGet d languageCode then (dget d languageCode).getD ""
      else firstTruthyValue d

/-- Other Python operands that an instance can be compared against with `==`. -/
inductive PyObject where
  | pyNoneObj
  | lazyObj (c : I18nContent)
  | dictObj (es : Entries)
  | intObj (n : Int)
  | strObj (s : String)
  | boolObj (b : Bool)
  | listObj (xs : List String)

/-- Python `==` on two backing dicts: equal as mappings (key order is ignored). -/
def dictEqB (d e : Entries) : Bool :=
  ((d.map Prod.fst).all fun k => dget d k == dget e k) &&
  ((e.map Prod.fst).all fun k => dget d k == dget e k)

/-- Python `==` between two backing contents (`self.data == other.data`). A dict
never equals a proxy; two proxies compare by object identity, and `from_gettext`
always allocates a fresh proxy, so distinct instances compare unequal. -/
def contentEq : I18nContent → I18nContent → Bool
  | .dictData d, .dictData e => dictEqB d e
  | _, _ => false

/-- `LazyI18nString.__eq__`: `None` compares false; an operand with a `data`
attribute is compared by `self.data == other.data`; anything else is compared by
`self.data == other` (a dict equals only a mapping with equal content; comparison
against other builtin types yields `False` without raising). -/
def lazyEq (self : I18nContent) : PyObject → Bool
  | .pyNoneObj => false
  | .lazyObj c => contentEq self c
  | .dictObj es =>
    match self with
    | .dictData d => dictEqB d es
    | .proxyData _ => false
  | .intObj _ => false
  | .strObj _ => false
  | .boolObj _ => false
  | .listObj _ => false

/-- `django.utils.translation.override(item)` used as a context manager: on entry
the active locale is saved and set to `item`; the body runs under the new locale;
on exit the saved locale is restored, whether the body returned or raised. -/
def withOverride {α : Type} (item : String) (body : String → Except PyExn α)
    (st : String) : Except PyExn α × String :=
  let saved := st
  match body item with
  | .ok v => (.ok v, saved)
  | .error e => (.error e, saved)

/-- `LazyGettextProxy.__getitem__(item)`: `with override(item): return
str(gettext(self.lazygettext))`. `render` models gettext's rendering of the lazy
source under the active locale and may raise. -/
def proxyGetitem (render : String → String → Except PyExn String) (g item : String)
    (st : String) : Except PyExn String × String :=
  withOverride item (fun active => render g active) st

/- ===================== Python values and json.loads ===================== -/

/-- Python values produced by `json.loads` (floats keep their literal text; their
numeric value plays no role in the embedded code). -/
inductive PyValue where
  | pyNone
  | pyBool (b : Bool)
  | pyInt (n : Int)
  | pyFloat (raw : String)
  | pyStr (s : String)
  | pyList (xs : List PyValue)
  | pyDict (entries : List (String × PyValue))

/-- JSON whitespace, as accepted by Python's json decoder. -/
def isJsonWs (c : Char) : Bool := c == ' ' || c == '\t' || c == '\n' || c == '\r'

def skipWs (l : List Char) : List Char := l.dropWhile isJsonWs

def hexVal (c : Char) : Option Nat :=
  if '0' ≤ c ∧ c ≤ '9' then some (c.toNat - 48)
  else if 'a' ≤ c ∧ c ≤ 'f' then some (c.toNat - 87)
  else if 'A' ≤ c ∧ c ≤ 'F' then some (c.toNat - 55)
  else none

def hex4 (a b c d : Char) : Option Nat :=
  match hexVal a, hexVal b, hexVal c, hexVal d with
  | some w, some x, some y, some z => some (((w * 16 + x) * 16 + y) * 16 + z)
  | _, _, _, _ => none

def consStr (c : Char) :
    Except PyExn (List Char × List Char) → Except PyExn (List Char × List Char)
  | .ok (cs, rest) => .ok (c :: cs, rest)
  | .error e => .error e

/-- Continuation on a successfully decoded hex quadruple (`ValueError` otherwise). -/
def onSome {β : Type} (o : Option Nat) (k : Nat → Except PyExn β) : Except PyExn β :=
  match o with
  | none => .error .valueError
  | some n => k n

/-- After a high surrogate `\uXXXX`, Python's json decoder requires a following
`\uXXXX` low surrogate and combines the pair into one scalar value. -/
def decodeLowSurrogate (n : Nat) : List Char → Except PyExn (Char × List Char)
  | e2 :: u2 :: a2 :: b2 :: c3 :: d2 :: rest4 =>
    if e2 = '\\' ∧ u2 = 'u' then
      onSome (hex4 a2 b2 c3 d2) (fun m =>
        if 56320 ≤ m ∧ m ≤ 57343 then
          .ok (Char.ofNat (65536 + (n - 55296) * 1024 + (m - 56320)), rest4)
        else .error .valueError)
    else .error .valueError
  | _ => .error .valueError

/-- Decode one escape sequence (the characters after a `\`), as Python's json
decoder does: the standard short escapes and `\uXXXX`, combining a high/low
surrogate pair into one scalar value. Lone surrogates, which CPython tolerates,
are rejected here because a Lean `Char` is a unicode scalar value; they never
occur in the output of the encoder below. Returns the decoded character and the
remaining input. -/
def decodeEscape : List Char → Except PyExn (Char × List Char)
  | [] => .error .valueError
  | e :: rest2 =>
    if e = '"' then .ok ('"', rest2)
    else if e = '\\' then .ok ('\\', rest2)
    else if e = '/' then .ok ('/', rest2)
    else if e = 'b' then .ok (Char.ofNat 8, rest2)
    else if e = 'f' then .ok (Char.ofNat 12, rest2)
    else if e = 'n' then .ok (Char.ofNat 10, rest2)
    else if e = 'r' then .ok (Char.ofNat 13, rest2)
    else if e = 't' then .ok (Char.ofNat 9, rest2)
    else if e = 'u' then
      match rest2 with
      | a :: b :: c2 :: d :: rest3 =>
        onSome (hex4 a b c2 d) (fun n =>
          if 55296 ≤ n ∧ n ≤ 56319 then decodeLowSurrogate n rest3
          else if 56320 ≤ n ∧ n ≤ 57343 then .error .valueError
          else .ok (Char.ofNat n, rest3))
      | _ => .error .valueError
    else .error .valueError

/-- Decode a JSON string body (after the opening quote), as Python's strict json
decoder does: `"` ends the string, `\` starts an escape, raw control characters
are rejected, any other character stands for itself. The fuel only bounds the
number of decoded characters; every caller supplies enough for its input. -/
def parseStringAux : Nat → List Char → Except PyExn (List Char × List Char)
  | 0, _ => .error .valueError
  | _, [] => .error .valueError
  | fuel + 1, c :: rest =>
    if c = '"' then .ok ([], rest)
    else if c = '\\' then
      match decodeEscape rest with
      | .error e => .error e
      | .ok (ch, rest2) => consStr ch (parseStringAux fuel rest2)
    else if c.toNat < 32 then .error .valueError
    else consStr c (parseStringAux fuel rest)

def expectWord : List Char → List Char → Option (List Char)
  | [], l => some l
  | _ :: _, [] => none
  | a :: ws, b :: ls => if a = b then expectWord ws ls else none

def digitsVal (ds : List Char) : Nat := ds.foldl (fun acc c => acc * 10 + (c.toNat - 48)) 0

/-- The exponent tail of a JSON number (after `e`/`E`). -/
def parseExpTail (raw : List Char) (l : List Char) : Except PyExn (PyValue × List Char) :=
  let (sgn, l1) :=
    match l with
    | '+' :: t => (['+'], t)
    | '-' :: t => (['-'], t)
    | _ => (([] : List Char), l)
  let es := l1.takeWhile Char.isDigit
  let r := l1.dropWhile Char.isDigit
  if es.isEmpty then .error .valueError else .ok (.pyFloat ⟨raw ++ sgn ++ es⟩, r)

/-- A JSON number per Python's json grammar: integers become Python ints, numbers
with a fraction or exponent become floats. -/
def parseNumber (l : List Char) : Except PyExn (PyValue × List Char) :=
  let (neg, l1) :=
    match l with
    | '-' :: t => (true, t)
    | _ => (false, l)
  let sgn : List Char := if neg then ['-'] else []
  let ds := l1.takeWhile Char.isDigit
  let r1 := l1.dropWhile Char.isDigit
  if ds.isEmpty then .error .valueError
  else if 1 < ds.length ∧ ds.headD '0' = '0' then .error .valueError
  else
    match r1 with
    | '.' :: t =>
      let fs := t.takeWhile Char.isDigit
      let r2 := t.dropWhile Char.isDigit
      if fs.isEmpty then .error .valueError
      else
        match r2 with
        | c :: t2 =>
          if c = 'e' ∨ c = 'E' then parseExpTail (sgn ++ ds ++ '.' :: fs ++ [c]) t2
          else .ok (.pyFloat ⟨sgn ++ ds ++ '.' :: fs⟩, r2)
        | [] => .ok (.pyFloat ⟨sgn ++ ds ++ '.' :: fs⟩, [])
    | c :: t =>
      if c = 'e' ∨ c = 'E' then parseExpTail (sgn ++ ds ++ [c]) t
      else .ok (.pyInt (if neg then -(digitsVal ds : Int) else (digitsVal ds : Int)), r1)
    | [] => .ok (.pyInt (if neg then -(digitsVal ds : Int) else (digitsVal ds : Int)), [])

def lbrace : Char := Char.ofNat 123

def rbrace : Char := Char.ofNat 125

/-- Dict insertion with Python semantics: an existing key keeps its position and
gets the new value, a fresh key is appended. -/
def sInsert (es : List (String × PyValue)) (k : String) (v : PyValue) :
    List (String × PyValue) :=
  if es.any (fun p => p.1 == k) then es.map (fun p => if p.1 == k then (p.1, v) else p)
  else es ++ [(k, v)]

/-- The recursion tasks of the json decoder: a value, the members of an object
(after `{` or `,`), or the elements of an array (after `[` or `,`). -/
inductive ParseTask where
  | value (l : List Char)
  | objMembers (acc : List (String × PyValue)) (l : List Char)
  | arrElems (acc : List PyValue) (l : List Char)

/-- Case split on the head of the remaining input (`ValueError` at end of input). -/
def headCase {β : Type} (l : List Char) (k : Char → List Char → Except PyExn β) :
    Except PyExn β :=
  match l with
  | [] => .error .valueError
  | c :: rest => k c rest

/-- Continuation on a successful sub-parse; an error propagates. -/
def onOk {γ β : Type} (r : Except PyExn γ) (k : γ → Except PyExn β) : Except PyExn β :=
  match r with
  | .error e => .error e
  | .ok x => k x

/-- Fuel-indexed json decoder (Python `json.loads` grammar). The fuel only bounds
the recursion depth; `json_loads` below supplies enough for any input. -/
def parseCore : Nat → ParseTask → Except PyExn (PyValue × List Char)
  | 0, _ => .error .valueError
  | fuel + 1, .value l =>
    headCase (skipWs l) fun c rest =>
      if c = '"' then
        onOk (parseStringAux (rest.length + 1) rest) fun p => .ok (.pyStr ⟨p.1⟩, p.2)
      else if c = lbrace then
        headCase (skipWs rest) fun c2 r2 =>
          if c2 = rbrace then .ok (.pyDict [], r2)
          else parseCore fuel (.objMembers [] (c2 :: r2))
      else if c = '[' then
        headCase (skipWs rest) fun c2 r2 =>
          if c2 = ']' then .ok (.pyList [], r2)
          else parseCore fuel (.arrElems [] (c2 :: r2))
      else if c = 'n' then
        match expectWord ['u', 'l', 'l'] rest with
        | some r => .ok (.pyNone, r)
        | none => .error .valueError
      else if c = 't' then
        match expectWord ['r', 'u', 'e'] rest with
        | some r => .ok (.pyBool true, r)
        | none => .error .valueError
      else if c = 'f' then
        match expectWord ['a', 'l', 's', 'e'] rest with
        | some r => .ok (.pyBool false, r)
        | none => .error .valueError
      else if c = 'N' then
        match expectWord ['a', 'N'] rest with
        | some r => .ok (.pyFloat "NaN", r)
        | none => .error .valueError
      else if c = 'I' then
        match expectWord "nfinity".data rest with
        | some r => .ok (.pyFloat "Infinity", r)
        | none => .error .valueError
      else if c = '-' then
        match rest with
        | 'I' :: r2 =>
          match expectWord "nfinity".data r2 with
          | some r => .ok (.pyFloat "-Infinity", r)
          | none => .error .valueError
        | _ => parseNumber (c :: rest)
      else if c.isDigit then parseNumber (c :: rest)
      else .error .valueError
  | fuel + 1, .objMembers acc l =>
    headCase (skipWs l) fun c rest =>
      if c = '"' then
        onOk (parseStringAux (rest.length + 1) rest) fun pk =>
          headCase (skipWs pk.2) fun c2 r2 =>
            if c2 = ':' then
              onOk (parseCore fuel (.value r2)) fun pv =>
                headCase (skipWs pv.2) fun c3 r4 =>
                  if c3 = ',' then parseCore fuel (.objMembers (sInsert acc ⟨pk.1⟩ pv.1) r4)
                  else if c3 = rbrace then .ok (.pyDict (sInsert acc ⟨pk.1⟩ pv.1), r4)
                  else .error .valueError
            else .error .valueError
      else .error .valueError
  | fuel + 1, .arrElems acc l =>
    onOk (parseCore fuel (.value l)) fun pv =>
      headCase (skipWs pv.2) fun c r2 =>
        if c = ',' then parseCore fuel (.arrElems (acc ++ [pv.1]) r2)
        else if c = ']' then .ok (.pyList (acc ++ [pv.1]), r2)
        else .error .valueError

/-- `json.loads`: decode a value and require only whitespace after it ("Extra
data" otherwise). All decoding failures are `ValueError` (`JSONDecodeError`). -/
def json_loads (s : String) : Except PyExn PyValue :=
  onOk (parseCore (2 * s.data.length + 4) (.value s.data)) fun p =>
    if (skipWs p.2).isEmpty then .ok p.1 else .error .valueError

/- ===================== json.dumps(..., sort_keys=True) ===================== -/

def hexDig (n : Nat) : Char := if n < 10 then Char.ofNat (48 + n) else Char.ofNat (87 + n)

/-- Python's `ensure_ascii` string escaping: `"` and `\` are escaped, control
characters use the short escapes or `\u00XX`, printable ASCII is literal, and
everything else becomes `\uXXXX` (a surrogate pair beyond the BMP). -/
def encodeChar (c : Char) : List Char :=
  if c = '"' then ['\\', '"']
  else if c = '\\' then ['\\', '\\']
  else if c.toNat = 8 then ['\\', 'b']
  else if c.toNat = 9 then ['\\', 't']
  else if c.toNat = 10 then ['\\', 'n']
  else if c.toNat = 12 then ['\\', 'f']
  else if c.toNat = 13 then ['\\', 'r']
  else if c.toNat < 32 then ['\\', 'u', '0', '0', hexDig (c.toNat / 16), hexDig (c.toNat % 16)]
  else if c.toNat < 127 then [c]
  else if c.toNat < 65536 then
    ['\\', 'u', hexDig (c.toNat / 4096 % 16), hexDig (c.toNat / 256 % 16),
      hexDig (c.toNat / 16 % 16), hexDig (c.toNat % 16)]
  else
    ['\\', 'u', hexDig ((55296 + (c.toNat - 65536) / 1024) / 4096 % 16),
      hexDig ((55296 + (c.toNat - 65536) / 1024) / 256 % 16),
      hexDig ((55296 + (c.toNat - 65536) / 1024) / 16 % 16),
      hexDig ((55296 + (c.toNat - 65536) / 1024) % 16),
      '\\', 'u', hexDig ((56320 + (c.toNat - 65536) % 1024) / 4096 % 16),
      hexDig ((56320 + (c.toNat - 65536) % 1024) / 256 % 16),
      hexDig ((56320 + (c.toNat - 65536) % 1024) / 16 % 16),
      hexDig ((56320 + (c.toNat - 65536) % 1024) % 16)]

def dumpJString (s : String) : List Char := '"' :: (s.data.map encodeChar).flatten ++ ['"']

/-- One `"key": "value"` member, with json.dumps' default `': '` separator. -/
def dumpEntry (p : String × String) : List Char := dumpJString p.1 ++ ':' :: ' ' :: dumpJString p.2

/-- Join with json.dumps' default `', '` item separator. -/
def joinComma : List (List Char) → List Char
  | [] => []
  | [x] => x
  | x :: y :: rest => x ++ ',' :: ' ' :: joinComma (y :: rest)

/-- Insertion into a key-sorted list (Python `sorted` is a total-order sort; with
the unique keys of a dict any comparison sort produces this result). -/
def insertByKey (p : String × String) : Entries → Entries
  | [] => [p]
  | q :: rest => if p.1 ≤ q.1 then p :: q :: rest else q :: insertByKey p rest

def sortByKey (es : Entries) : Entries := es.foldr insertByKey []

/-- `json.dumps(d, sort_keys=True)` for a dict of strings. -/
def dumpSortedDict (es : Entries) : String :=
  ⟨lbrace :: joinComma ((sortByKey es).map dumpEntry) ++ [rbrace]⟩

/- ===================== I18nField.get_prep_value ===================== -/

/-- The truthy-valued entries of a dict, in insertion order (the
`{k: v for k, v in value.items() if v}` comprehension). -/
def truthyEntries (d : Entries) : Entries := d.filter fun p => truthy p.2

/-- Serialization of a dict-backed value by `I18nField.get_prep_value`. -/
def prepDict (d : Entries) : String := dumpSortedDict (truthyEntries d)

/-- The `{lng: value[lng] for lng, lngname in settings.LANGUAGES if value[lng]}`
expansion of a proxy-backed value; `tr` models gettext's rendering of the lazy
source under a locale. -/
def proxyEntries (LANGUAGES : List (String × String)) (tr : String → String → String)
    (g : String) : Entries :=
  (LANGUAGES.map Prod.fst).filterMap fun lng =>
    if truthy (tr g lng) then some (lng, tr g lng) else none

/-- Serialization of a proxy-backed value by `I18nField.get_prep_value`. -/
def prepProxy (LANGUAGES : List (String × String)) (tr : String → String → String)
    (g : String) : String :=
  dumpSortedDict (proxyEntries LANGUAGES tr g)

/-- The `value` argument domain of `I18nField.get_prep_value`. -/
inductive PrepValue where
  | lazyVal (c : I18nContent)
  | dictVal (es : Entries)
  | proxyVal (g : String)
  | strVal (s : String)
  | noneVal

/-- `I18nField.get_prep_value`: unwrap a `LazyI18nString` to its data; dicts are
dumped with only their truthy entries and sorted keys; a proxy is expanded over
`settings.LANGUAGES` first; anything else passes through (`none` models `None`). -/
def get_prep_value (LANGUAGES : List (String × String)) (tr : String → String → String) :
    PrepValue → Option String
  | .lazyVal (.dictData d) => some (prepDict d)
  | .lazyVal (.proxyData g) => some (prepProxy LANGUAGES tr g)
  | .dictVal d => some (prepDict d)
  | .proxyVal g => some (prepProxy LANGUAGES tr g)
  | .strVal s => some s
  | .noneVal => none

/- ===================== LazyI18nString.__init__ ===================== -/

/-- The data held by a `UserDict` right after `__init__` (general Python values,
since a JSON string can decode to anything). -/
abbrev UserDictData := List (PyValue × PyValue)

/-- Python `==` on dict keys. Only hashable values can be keys; the numeric
cross-type equalities (`1 == 1.0 == True`), irrelevant to every input domain in
scope, are not modelled. -/
def pyKeyEq : PyValue → PyValue → Bool
  | .pyStr a, .pyStr b => a == b
  | .pyInt a, .pyInt b => a == b
  | .pyBool a, .pyBool b => a == b
  | .pyNone, .pyNone => true
  | .pyFloat a, .pyFloat b => a == b
  | _, _ => false

def pyHashable : PyValue → Bool
  | .pyList _ => false
  | .pyDict _ => false
  | _ => true

def udInsert (es : UserDictData) (k v : PyValue) : UserDictData :=
  if es.any (fun p => pyKeyEq p.1 k) then
    es.map (fun p => if pyKeyEq p.1 k then (p.1, v) else p)
  else es ++ [(k, v)]

/-- `self[key] = value` during `update`: an unhashable key raises `TypeError`. -/
def udInsertChecked (es : UserDictData) (k v : PyValue) : Except PyExn UserDictData :=
  if pyHashable k then .ok (udInsert es k v) else .error .typeError

/-- `key, value = item` unpacking of one element of a key/value iterable:
two-element lists and two-character strings unpack; a two-entry dict yields its
keys; wrong sizes raise `ValueError`, non-iterables `TypeError`. -/
def unpack2 : PyValue → Except PyExn (PyValue × PyValue)
  | .pyList [a, b] => .ok (a, b)
  | .pyList _ => .error .valueError
  | .pyStr s =>
    match s.data with
    | [a, b] => .ok (.pyStr ⟨[a]⟩, .pyStr ⟨[b]⟩)
    | _ => .error .valueError
  | .pyDict [(k1, _), (k2, _)] => .ok (.pyStr k1, .pyStr k2)
  | .pyDict _ => .error .valueError
  | _ => .error .typeError

def udFromPairs : UserDictData → List PyValue → Except PyExn UserDictData
  | acc, [] => .ok acc
  | acc, x :: xs =>
    match unpack2 x with
    | .error e => .error e
    | .ok (k, v) =>
      match udInsertChecked acc k v with
      | .error e => .error e
      | .ok acc2 => udFromPairs acc2 xs

/-- `update` from a mapping with string keys: `for key in other: self[key] = other[key]`. -/
def udFromStrKeyed (es : List (String × PyValue)) : UserDictData :=
  es.foldl (fun acc p => udInsert acc (.pyStr p.1) p.2) []

def strEntries (es : Entries) : UserDictData := es.map fun p => (.pyStr p.1, .pyStr p.2)

/-- `UserDict.__init__(dict_data)`: `None` skips the update; a mapping is copied
entry by entry; a string or list is consumed as an iterable of key/value pairs
(`dict(...)` semantics); non-iterables raise `TypeError`. -/
def userDictInit : PyValue → Except PyExn UserDictData
  | .pyNone => .ok []
  | .pyDict es => .ok (udFromStrKeyed es)
  | .pyStr s => if s.data.isEmpty then .ok [] else .error .valueError
  | .pyList xs => udFromPairs [] xs
  | .pyInt _ => .error .typeError
  | .pyBool _ => .error .typeError
  | .pyFloat _ => .error .typeError

/-- The declared input domain of `LazyI18nString.__init__`: `None`, a string, or
a locale→text mapping. -/
inductive CtorInput where
  | noneInput
  | strInput (s : String)
  | dictInput (es : Entries)

/-- `LazyI18nString.__init__`: a string is fed to `json.loads`; only `ValueError`
is caught (yielding the `_naive` dict); any successfully parsed value — object or
not — is handed to `UserDict.__init__` unchecked. -/
def construct : CtorInput → Except PyExn UserDictData
  | .noneInput => .ok []
  | .dictInput es => .ok (udFromStrKeyed (es.map fun p => (p.1, .pyStr p.2)))
  | .strInput s =>
    match json_loads s with
    | .error _ => .ok [(.pyStr "_naive", .pyStr s)]
    | .ok v => userDictInit v

/-- The abstract content of `prepDict d` as a parsed JSON object: the truthy
entries of `d`, key-sorted. -/
def dictReprOf (d : Entries) : List (String × PyValue) :=
  (sortByKey (truthyEntries d)).map fun p => (p.1, .pyStr p.2)

/-- The abstract content of `prepProxy` as a parsed JSON object. -/
def proxyReprOf (LANGUAGES : List (String × String)) (tr : String → String → String)
    (g : String) : List (String × PyValue) :=
  (sortByKey (proxyEntries LANGUAGES tr g)).map fun p => (p.1, .pyStr p.2)

/-- The backing data of an instance reconstructed from `prepDict d`. -/
def udReprOf (d : Entries) : UserDictData :=
  (sortByKey (truthyEntries d)).map fun p => (.pyStr p.1, .pyStr p.2)

/- ===================== general list/string lemmas ===================== -/

theorem takeWhile_append_all {α : Type} (p : α → Bool) (l₁ l₂ : List α)
    (h : ∀ a ∈ l₁, p a = true) :
    (l₁ ++ l₂).takeWhile p = l₁ ++ l₂.takeWhile p := by
  induction l₁ with
  | nil => simp
  | cons a t ih =>
    rw [List.cons_append, List.takeWhile_cons, if_pos (h a (by simp)),
      ih (fun x hx => h x (by simp [hx])), List.cons_append]

theorem dropWhile_append_all {α : Type} (p : α → Bool) (l₁ l₂ : List α)
    (h : ∀ a ∈ l₁, p a = true) :
    (l₁ ++ l₂).dropWhile p = l₂.dropWhile p := by
  induction l₁ with
  | nil => simp
  | cons a t ih =>
    rw [List.cons_append, List.dropWhile_cons, if_pos (h a (by simp))]
    exact ih (fun x hx => h x (by simp [hx]))

theorem head_dropWhile_false {α : Type} {p : α → Bool} {l : List α} {c : α} {t : List α}
    (h : l.dropWhile p = c :: t) : p c = false := by
  induction l with
  | nil => simp [List.dropWhile] at h
  | cons a l ih =>
    rw [List.dropWhile_cons] at h
    by_cases hp : p a = true
    · rw [if_pos hp] at h; exact ih h
    · rw [if_neg hp] at h
      injection h with h1 _
      subst h1
      simpa using hp

theorem isPrefixOf_append_self {α : Type} [BEq α] [LawfulBEq α] (l t : List α) :
    l.isPrefixOf (l ++ t) = true := by
  induction l with
  | nil => simp [List.isPrefixOf]
  | cons a l ih => simp [List.isPrefixOf, ih]

theorem exists_append_of_isPrefixOf {α : Type} [BEq α] [LawfulBEq α] {l m : List α}
    (h : l.isPrefixOf m = true) : ∃ t, m = l ++ t := by
  induction l generalizing m with
  | nil => exact ⟨m, rfl⟩
  | cons a l ih =>
    cases m with
    | nil => simp [List.isPrefixOf] at h
    | cons b m =>
      simp only [List.isPrefixOf, Bool.and_eq_true, beq_iff_eq] at h
      obtain ⟨rfl, h2⟩ := h
      obtain ⟨t, rfl⟩ := ih h2
      exact ⟨t, rfl⟩

theorem find?_eq_head?_filter {α : Type} (p : α → Bool) (l : List α) :
    l.find? p = (l.filter p).head? := by
  induction l with
  | nil => rfl
  | cons a l ih =>
    by_cases h : p a = true
    · rw [List.find?_cons_of_pos _ h, List.filter_cons, if_pos h, List.head?_cons]
    · rw [List.find?_cons_of_neg _ h, List.filter_cons, if_neg h]
      exact ih

/- ===================== base/startswith lemmas ===================== -/

theorem pyBase_data (s : String) : (pyBase s).data = s.data.takeWhile (fun c => c != '-') := rfl

theorem pyBase_all_ne (s : String) : ∀ c ∈ (pyBase s).data, (c != '-') = true := by
  intro c hc
  rw [pyBase_data] at hc
  exact List.mem_takeWhile_imp (p := fun c => c != '-') hc

theorem pyStartsWith_of_base {k s : String} (hne : k ≠ pyBase s) (hb : pyBase k = pyBase s) :
    pyStartsWith k (pyBase s ++ "-") = true := by
  have hdata : k.data = (pyBase s).data ++ k.data.dropWhile (fun c => c != '-') := by
    conv_lhs => rw [← List.takeWhile_append_dropWhile (fun c => c != '-') k.data]
    rw [← pyBase_data, hb]
  cases hdrop : k.data.dropWhile (fun c => c != '-') with
  | nil =>
    exfalso
    apply hne
    apply String.ext
    rw [hdata, hdrop, List.append_nil]
  | cons c t =>
    have hc : c = '-' := by
      have := head_dropWhile_false hdrop
      simpa using this
    subst hc
    unfold pyStartsWith
    rw [String.data_append, show ("-" : String).data = ['-'] from rfl, hdata, hdrop,
      show (pyBase s).data ++ '-' :: t = ((pyBase s).data ++ ['-']) ++ t by simp]
    exact isPrefixOf_append_self _ _

theorem base_of_pyStartsWith {k s : String} (h : pyStartsWith k (pyBase s ++ "-") = true) :
    pyBase k = pyBase s := by
  unfold pyStartsWith at h
  rw [String.data_append, show ("-" : String).data = ['-'] from rfl] at h
  obtain ⟨t, ht⟩ := exists_append_of_isPrefixOf h
  apply String.ext
  rw [pyBase_data, ht, List.append_assoc,
    takeWhile_append_all _ _ _ (pyBase_all_ne s)]
  simp [List.takeWhile_cons]

/- ===================== localize cascade lemmas ===================== -/

theorem dget_of_truthyGet {d : Entries} {k : String} (h : truthyGet d k = true) :
    dget d k = some ((dget d k).getD "") := by
  unfold truthyGet at h
  cases hd : dget d k <;> simp [hd] at h ⊢

theorem filter_similar_eq {d : Entries} {lng : String}
    (hB : truthyGet d (pyBase lng) = false) :
    (similarKeys d lng (pyBase lng)).filter (truthyGet d) =
      (specSimilar d lng).filter (truthyGet d) := by
  unfold similarKeys specSimilar
  rw [List.filter_filter, List.filter_filter]
  apply List.filter_congr
  intro k _
  by_cases hT : truthyGet d k = true
  · rw [hT]
    simp only [Bool.true_and]
    have hkfp : k ≠ pyBase lng := by
      rintro rfl
      rw [hB] at hT
      exact absurd hT (by decide)
    by_cases hlng : k = lng
    · have h3 : (k != lng) = false := by simp [hlng]
      rw [h3]
      simp
    · have h3 : (k != lng) = true := by simpa using hlng
      by_cases hnv : k = "_naive"
      · have h4 : (k != "_naive") = false := by simp [hnv]
        have h5 : (pyBase lng == k) = false := by
          simp only [beq_eq_false_iff_ne, ne_eq]
          exact fun hh => hkfp hh.symm
        rw [h3, h4, h5]
        simp
      · have h4 : (k != "_naive") = true := by simpa using hnv
        by_cases hbase : pyBase k = pyBase lng
        · have hstart := pyStartsWith_of_base hkfp hbase
          have h5 : (pyBase k == pyBase lng) = true := by simpa using hbase
          rw [h3, h4, h5, hstart]
          simp
        · have hstart : pyStartsWith k (pyBase lng ++ "-") = false := by
            cases hps : pyStartsWith k (pyBase lng ++ "-")
            · rfl
            · exact absurd (base_of_pyStartsWith hps) hbase
          have h5 : (pyBase k == pyBase lng) = false := by
            simp only [beq_eq_false_iff_ne, ne_eq]
            exact hbase
          have h6 : (pyBase lng == k) = false := by
            simp only [beq_eq_false_iff_ne, ne_eq]
            exact fun hh => hkfp hh.symm
          rw [h3, h4, h5, h6, hstart]
          simp
  · have hT' : truthyGet d k = false := by simpa using hT
    rw [hT']
    simp

theorem localizeDict_eq_spec (d : Entries) (lc lng : String) :
    localizeDict d lc lng = some (specLocalize d lc lng) := by
  unfold localizeDict specLocalize
  by_cases hE : d.isEmpty = true
  · simp [hE]
  · simp only [hE, if_false, Bool.false_eq_true]
    by_cases hA : truthyGet d lng = true
    · simp only [hA, if_true]
      exact dget_of_truthyGet hA
    · simp only [hA, if_false, Bool.false_eq_true]
      by_cases hB : truthyGet d (pyBase lng) = true
      · simp only [hB, if_true]
        exact dget_of_truthyGet hB
      · have hB' : truthyGet d (pyBase lng) = false := by simpa using hB
        simp only [hB, if_false, Bool.false_eq_true]
        have hfilters := @filter_similar_eq d lng hB'
        cases hfc : (specSimilar d lng).filter (truthyGet d) with
        | nil =>
          have hcode : (similarKeys d lng (pyBase lng)).filter (truthyGet d) = [] := by
            rw [hfilters, hfc]
          have hany : (similarKeys d lng (pyBase lng)).any (truthyGet d) = false := by
            rw [List.any_eq_false]
            intro x hx
            have := List.filter_eq_nil_iff.mp hcode x hx
            simpa using this
          rw [hany]
          simp only [Bool.and_false, if_false, Bool.false_eq_true]
          rw [find?_eq_head?_filter, hfc]
          simp only [List.head?_nil]
          by_cases hC : truthyGet d lc = true
          · simp only [hC, if_true]
            exact dget_of_truthyGet hC
          · simp only [hC, if_false, Bool.false_eq_true]
            unfold firstTruthyValue
            cases (d.map Prod.snd).filter truthy <;> simp
        | cons k ks =>
          have hcodef : (similarKeys d lng (pyBase lng)).filter (truthyGet d) = k :: ks := by
            rw [hfilters, hfc]
          have hk : k ∈ (similarKeys d lng (pyBase lng)).filter (truthyGet d) := by
            rw [hcodef]; exact List.mem_cons_self _ _
          have hkmem := List.mem_filter.mp hk
          have hany : (similarKeys d lng (pyBase lng)).any (truthyGet d) = true := by
            rw [List.any_eq_true]
            exact ⟨k, hkmem.1, hkmem.2⟩
          have hnonempty : (similarKeys d lng (pyBase lng)).isEmpty = false := by
            cases hh : similarKeys d lng (pyBase lng) with
            | nil => rw [hh] at hkmem; exact absurd hkmem.1 (by simp)
            | cons a t => simp [hh]
          rw [hany, hnonempty]
          simp only [Bool.not_false, Bool.true_and, if_true]
          rw [find?_eq_head?_filter, hcodef, find?_eq_head?_filter, hfc]
          simp only [List.head?_cons, Option.some_bind]
          exact dget_of_truthyGet hkmem.2

/- ===================== string encode/decode round trip ===================== -/

theorem hexVal_hexDig : ∀ n, n < 16 → hexVal (hexDig n) = some n := by decide

theorem hex4_of_vals {a b c d : Char} {w x y z : Nat} (ha : hexVal a = some w)
    (hb : hexVal b = some x) (hc : hexVal c = some y) (hd : hexVal d = some z) :
    hex4 a b c d = some (((w * 16 + x) * 16 + y) * 16 + z) := by
  unfold hex4
  rw [ha, hb, hc, hd]

theorem char_valid_toNat (c : Char) :
    c.toNat < 55296 ∨ (57343 < c.toNat ∧ c.toNat < 1114112) := c.valid

theorem onSome_some {β : Type} (n : Nat) (k : Nat → Except PyExn β) :
    onSome (some n) k = k n := rfl

theorem decE_u (a b c2 d : Char) (rest3 : List Char) :
    decodeEscape ('u' :: a :: b :: c2 :: d :: rest3) =
      onSome (hex4 a b c2 d) (fun n =>
        if 55296 ≤ n ∧ n ≤ 56319 then decodeLowSurrogate n rest3
        else if 56320 ≤ n ∧ n ≤ 57343 then .error .valueError
        else .ok (Char.ofNat n, rest3)) := rfl

theorem decLS (n : Nat) (q1 q2 q3 q4 : Char) (X : List Char) :
    decodeLowSurrogate n ('\\' :: 'u' :: q1 :: q2 :: q3 :: q4 :: X) =
      onSome (hex4 q1 q2 q3 q4) (fun m =>
        if 56320 ≤ m ∧ m ≤ 57343 then
          .ok (Char.ofNat (65536 + (n - 55296) * 1024 + (m - 56320)), X)
        else .error .valueError) := by
  simp [decodeLowSurrogate]

theorem decE_u_single (a b c2 d : Char) (rest3 : List Char) (n : Nat)
    (h : hex4 a b c2 d = some n) (hlo : n < 55296 ∨ 57343 < n) :
    decodeEscape ('u' :: a :: b :: c2 :: d :: rest3) = .ok (Char.ofNat n, rest3) := by
  rw [decE_u, h, onSome_some]
  rw [if_neg (by omega), if_neg (by omega)]

theorem decE_u_pair (a b c2 d q1 q2 q3 q4 : Char) (X : List Char) (n m : Nat)
    (hn : hex4 a b c2 d = some n) (hm : hex4 q1 q2 q3 q4 = some m)
    (h1 : 55296 ≤ n ∧ n ≤ 56319) (h2 : 56320 ≤ m ∧ m ≤ 57343) :
    decodeEscape ('u' :: a :: b :: c2 :: d :: '\\' :: 'u' :: q1 :: q2 :: q3 :: q4 :: X) =
      .ok (Char.ofNat (65536 + (n - 55296) * 1024 + (m - 56320)), X) := by
  rw [decE_u, hn, onSome_some, if_pos h1, decLS, hm, onSome_some, if_pos h2]

theorem decodeEscape_encodeChar (c : Char) (X : List Char) :
    (encodeChar c = [c] ∧ ¬c = '"' ∧ ¬c = '\\' ∧ ¬c.toNat < 32) ∨
    (∃ tl, encodeChar c = '\\' :: tl ∧ decodeEscape (tl ++ X) = .ok (c, X)) := by
  have hvalid := char_valid_toNat c
  by_cases hq : c = '"'
  · right
    refine ⟨['"'], by rw [hq]; rfl, ?_⟩
    rw [hq]
    rfl
  by_cases hbs : c = '\\'
  · right
    refine ⟨['\\'], by rw [hbs]; rfl, ?_⟩
    rw [hbs]
    rfl
  have henc : encodeChar c =
      (if c.toNat = 8 then ['\\', 'b']
      else if c.toNat = 9 then ['\\', 't']
      else if c.toNat = 10 then ['\\', 'n']
      else if c.toNat = 12 then ['\\', 'f']
      else if c.toNat = 13 then ['\\', 'r']
      else if c.toNat < 32 then
        ['\\', 'u', '0', '0', hexDig (c.toNat / 16), hexDig (c.toNat % 16)]
      else if c.toNat < 127 then [c]
      else if c.toNat < 65536 then
        ['\\', 'u', hexDig (c.toNat / 4096 % 16), hexDig (c.toNat / 256 % 16),
          hexDig (c.toNat / 16 % 16), hexDig (c.toNat % 16)]
      else
        ['\\', 'u', hexDig ((55296 + (c.toNat - 65536) / 1024) / 4096 % 16),
          hexDig ((55296 + (c.toNat - 65536) / 1024) / 256 % 16),
          hexDig ((55296 + (c.toNat - 65536) / 1024) / 16 % 16),
          hexDig ((55296 + (c.toNat - 65536) / 1024) % 16),
          '\\', 'u', hexDig ((56320 + (c.toNat - 65536) % 1024) / 4096 % 16),
          hexDig ((56320 + (c.toNat - 65536) % 1024) / 256 % 16),
          hexDig ((56320 + (c.toNat - 65536) % 1024) / 16 % 16),
          hexDig ((56320 + (c.toNat - 65536) % 1024) % 16)]) := by
    unfold encodeChar
    rw [if_neg hq, if_neg hbs]
  by_cases h8 : c.toNat = 8
  · rw [if_pos h8] at henc
    right
    refine ⟨['b'], henc, ?_⟩
    have hd : decodeEscape ('b' :: X) = .ok (Char.ofNat 8, X) := rfl
    rw [List.singleton_append, hd, ← h8, Char.ofNat_toNat]
  rw [if_neg h8] at henc
  by_cases h9 : c.toNat = 9
  · rw [if_pos h9] at henc
    right
    refine ⟨['t'], henc, ?_⟩
    have hd : decodeEscape ('t' :: X) = .ok (Char.ofNat 9, X) := rfl
    rw [List.singleton_append, hd, ← h9, Char.ofNat_toNat]
  rw [if_neg h9] at henc
  by_cases h10 : c.toNat = 10
  · rw [if_pos h10] at henc
    right
    refine ⟨['n'], henc, ?_⟩
    have hd : decodeEscape ('n' :: X) = .ok (Char.ofNat 10, X) := rfl
    rw [List.singleton_append, hd, ← h10, Char.ofNat_toNat]
  rw [if_neg h10] at henc
  by_cases h12 : c.toNat = 12
  · rw [if_pos h12] at henc
    right
    refine ⟨['f'], henc, ?_⟩
    have hd : decodeEscape ('f' :: X) = .ok (Char.ofNat 12, X) := rfl
    rw [List.singleton_append, hd, ← h12, Char.ofNat_toNat]
  rw [if_neg h12] at henc
  by_cases h13 : c.toNat = 13
  · rw [if_pos h13] at henc
    right
    refine ⟨['r'], henc, ?_⟩
    have hd : decodeEscape ('r' :: X) = .ok (Char.ofNat 13, X) := rfl
    rw [List.singleton_append, hd, ← h13, Char.ofNat_toNat]
  rw [if_neg h13] at henc
  by_cases h32 : c.toNat < 32
  · rw [if_pos h32] at henc
    right
    refine ⟨['u', '0', '0', hexDig (c.toNat / 16), hexDig (c.toNat % 16)], henc, ?_⟩
    have hv : hex4 '0' '0' (hexDig (c.toNat / 16)) (hexDig (c.toNat % 16)) =
        some (((0 * 16 + 0) * 16 + c.toNat / 16) * 16 + c.toNat % 16) :=
      hex4_of_vals rfl rfl (hexVal_hexDig _ (by omega)) (hexVal_hexDig _ (by omega))
    have hval : ((0 * 16 + 0) * 16 + c.toNat / 16) * 16 + c.toNat % 16 = c.toNat := by omega
    rw [hval] at hv
    show decodeEscape ('u' :: '0' :: '0' :: hexDig (c.toNat / 16) :: hexDig (c.toNat % 16) :: X) =
      .ok (c, X)
    rw [decE_u_single _ _ _ _ _ _ hv (by omega), Char.ofNat_toNat]
  rw [if_neg h32] at henc
  by_cases h127 : c.toNat < 127
  · rw [if_pos h127] at henc
    left
    exact ⟨henc, hq, hbs, h32⟩
  rw [if_neg h127] at henc
  by_cases h65536 : c.toNat < 65536
  · rw [if_pos h65536] at henc
    right
    refine ⟨['u', hexDig (c.toNat / 4096 % 16), hexDig (c.toNat / 256 % 16),
      hexDig (c.toNat / 16 % 16), hexDig (c.toNat % 16)], henc, ?_⟩
    have hv : hex4 (hexDig (c.toNat / 4096 % 16)) (hexDig (c.toNat / 256 % 16))
        (hexDig (c.toNat / 16 % 16)) (hexDig (c.toNat % 16)) =
        some (((c.toNat / 4096 % 16 * 16 + c.toNat / 256 % 16) * 16 + c.toNat / 16 % 16) * 16 +
          c.toNat % 16) :=
      hex4_of_vals (hexVal_hexDig _ (by omega)) (hexVal_hexDig _ (by omega))
        (hexVal_hexDig _ (by omega)) (hexVal_hexDig _ (by omega))
    have hval : ((c.toNat / 4096 % 16 * 16 + c.toNat / 256 % 16) * 16 + c.toNat / 16 % 16) * 16 +
        c.toNat % 16 = c.toNat := by omega
    rw [hval] at hv
    show decodeEscape ('u' :: hexDig (c.toNat / 4096 % 16) :: hexDig (c.toNat / 256 % 16) ::
      hexDig (c.toNat / 16 % 16) :: hexDig (c.toNat % 16) :: X) = .ok (c, X)
    rw [decE_u_single _ _ _ _ _ _ hv (by omega), Char.ofNat_toNat]
  rw [if_neg h65536] at henc
  right
  refine ⟨_, henc, ?_⟩
  have hvn : hex4 (hexDig ((55296 + (c.toNat - 65536) / 1024) / 4096 % 16))
      (hexDig ((55296 + (c.toNat - 65536) / 1024) / 256 % 16))
      (hexDig ((55296 + (c.toNat - 65536) / 1024) / 16 % 16))
      (hexDig ((55296 + (c.toNat - 65536) / 1024) % 16)) =
      some (55296 + (c.toNat - 65536) / 1024) := by
    rw [hex4_of_vals (hexVal_hexDig _ (by omega)) (hexVal_hexDig _ (by omega))
      (hexVal_hexDig _ (by omega)) (hexVal_hexDig _ (by omega))]
    exact congrArg some (by omega)
  have hvm : hex4 (hexDig ((56320 + (c.toNat - 65536) % 1024) / 4096 % 16))
      (hexDig ((56320 + (c.toNat - 65536) % 1024) / 256 % 16))
      (hexDig ((56320 + (c.toNat - 65536) % 1024) / 16 % 16))
      (hexDig ((56320 + (c.toNat - 65536) % 1024) % 16)) =
      some (56320 + (c.toNat - 65536) % 1024) := by
    rw [hex4_of_vals (hexVal_hexDig _ (by omega)) (hexVal_hexDig _ (by omega))
      (hexVal_hexDig _ (by omega)) (hexVal_hexDig _ (by omega))]
    exact congrArg some (by omega)
  show decodeEscape ('u' :: hexDig ((55296 + (c.toNat - 65536) / 1024) / 4096 % 16) ::
    hexDig ((55296 + (c.toNat - 65536) / 1024) / 256 % 16) ::
    hexDig ((55296 + (c.toNat - 65536) / 1024) / 16 % 16) ::
    hexDig ((55296 + (c.toNat - 65536) / 1024) % 16) ::
    '\\' :: 'u' :: hexDig ((56320 + (c.toNat - 65536) % 1024) / 4096 % 16) ::
    hexDig ((56320 + (c.toNat - 65536) % 1024) / 256 % 16) ::
    hexDig ((56320 + (c.toNat - 65536) % 1024) / 16 % 16) ::
    hexDig ((56320 + (c.toNat - 65536) % 1024) % 16) :: X) = .ok (c, X)
  rw [decE_u_pair _ _ _ _ _ _ _ _ _ _ _ hvn hvm (by omega) (by omega)]
  have hchar : 65536 + ((55296 + (c.toNat - 65536) / 1024) - 55296) * 1024 +
      ((56320 + (c.toNat - 65536) % 1024) - 56320) = c.toNat := by omega
  rw [hchar, Char.ofNat_toNat]

theorem psa_quote (f : Nat) (t : List Char) : parseStringAux (f + 1) ('"' :: t) = .ok ([], t) := rfl

theorem psa_cons (f : Nat) (c : Char) (t : List Char) (h1 : ¬c = '"') (h2 : ¬c = '\\')
    (h3 : ¬c.toNat < 32) : parseStringAux (f + 1) (c :: t) = consStr c (parseStringAux f t) := by
  show (if c = '"' then Except.ok ([], t)
    else if c = '\\' then
      match decodeEscape t with
      | .error e => .error e
      | .ok (ch, rest2) => consStr ch (parseStringAux f rest2)
    else if c.toNat < 32 then .error .valueError
    else consStr c (parseStringAux f t)) = consStr c (parseStringAux f t)
  rw [if_neg h1, if_neg h2, if_neg h3]

theorem psa_escape (f : Nat) (r r2 : List Char) (ch : Char)
    (h : decodeEscape r = .ok (ch, r2)) :
    parseStringAux (f + 1) ('\\' :: r) = consStr ch (parseStringAux f r2) := by
  show (match decodeEscape r with
    | .error e => .error e
    | .ok (ch, rest2) => consStr ch (parseStringAux f rest2)) = consStr ch (parseStringAux f r2)
  rw [h]

theorem one_le_length_encodeChar (c : Char) : 1 ≤ (encodeChar c).length := by
  rcases decodeEscape_encodeChar c [] with ⟨he, _⟩ | ⟨tl, he, _⟩ <;> rw [he] <;> simp

theorem length_le_length_flattenEnc (l : List Char) :
    l.length ≤ ((l.map encodeChar).flatten).length := by
  induction l with
  | nil => simp
  | cons c l ih =>
    simp only [List.map_cons, List.flatten_cons, List.length_append, List.length_cons]
    have := one_le_length_encodeChar c
    omega

theorem parseStringAux_enc (l : List Char) : ∀ (fuel : Nat) (rest : List Char),
    l.length + 1 ≤ fuel →
    parseStringAux fuel ((l.map encodeChar).flatten ++ '"' :: rest) = .ok (l, rest) := by
  induction l with
  | nil =>
    intro fuel rest h
    obtain ⟨f, rfl⟩ : ∃ f, fuel = f + 1 := ⟨fuel - 1, by omega⟩
    simp only [List.map_nil, List.flatten_nil, List.nil_append]
    exact psa_quote f rest
  | cons c l ih =>
    intro fuel rest h
    obtain ⟨f, rfl⟩ : ∃ f, fuel = f + 1 := ⟨fuel - 1, by omega⟩
    rw [List.map_cons, List.flatten_cons, List.append_assoc]
    rcases decodeEscape_encodeChar c ((l.map encodeChar).flatten ++ '"' :: rest) with
      ⟨he, h1, h2, h3⟩ | ⟨tl, he, hdec⟩
    · rw [he, List.singleton_append, psa_cons f c _ h1 h2 h3,
        ih f rest (by simp at h; omega)]
      rfl
    · rw [he, List.cons_append, psa_escape f _ _ _ hdec, ih f rest (by simp at h; omega)]
      rfl

/- ===================== object round trip ===================== -/

theorem string_eta (s : String) : (⟨s.data⟩ : String) = s := rfl

theorem headCase_cons {β : Type} (c : Char) (rest : List Char)
    (k : Char → List Char → Except PyExn β) : headCase (c :: rest) k = k c rest := rfl

theorem onOk_ok {γ β : Type} (x : γ) (k : γ → Except PyExn β) : onOk (.ok x) k = k x := rfl

theorem skipWs_not_ws {c : Char} {l : List Char} (h : isJsonWs c = false) :
    skipWs (c :: l) = c :: l := by
  unfold skipWs
  rw [List.dropWhile_cons, if_neg (by simp [h])]

theorem skipWs_ws_append (sp l : List Char) (h : ∀ c ∈ sp, isJsonWs c = true) :
    skipWs (sp ++ l) = skipWs l := dropWhile_append_all _ _ _ h

theorem dumpJString_append (s : String) (T : List Char) :
    dumpJString s ++ T = '"' :: ((s.data.map encodeChar).flatten ++ '"' :: T) := by
  unfold dumpJString
  simp [List.append_assoc]

theorem parseCore_value_string (fuel : Nat) (sp : List Char) (v : String) (rest : List Char)
    (hfuel : 1 ≤ fuel) (hsp : ∀ c ∈ sp, isJsonWs c = true) :
    parseCore fuel (.value (sp ++ (dumpJString v ++ rest))) = .ok (.pyStr v, rest) := by
  obtain ⟨f, rfl⟩ : ∃ f, fuel = f + 1 := ⟨fuel - 1, by omega⟩
  have hskip : skipWs (sp ++ (dumpJString v ++ rest)) =
      '"' :: ((v.data.map encodeChar).flatten ++ '"' :: rest) := by
    rw [skipWs_ws_append _ _ hsp, dumpJString_append]
    exact skipWs_not_ws (by decide)
  simp only [parseCore]
  rw [hskip]
  simp only [headCase_cons]
  rw [if_pos trivial]
  have hlen : v.data.length + 1 ≤
      ((v.data.map encodeChar).flatten ++ '"' :: rest).length + 1 := by
    have := length_le_length_flattenEnc v.data
    simp only [List.length_append, List.length_cons]
    omega
  rw [parseStringAux_enc v.data _ rest hlen]
  simp only [onOk_ok, string_eta]

theorem parseCore_members (es : Entries) : ∀ (fuel : Nat) (acc : List (String × PyValue))
    (sp rest : List Char), es ≠ [] → es.length + 1 ≤ fuel → (∀ c ∈ sp, isJsonWs c = true) →
    parseCore fuel (.objMembers acc (sp ++ joinComma (es.map dumpEntry) ++ rbrace :: rest)) =
      .ok (.pyDict (es.foldl (fun a p => sInsert a p.1 (.pyStr p.2)) acc), rest) := by
  induction es with
  | nil =>
    intro _ _ _ _ hne
    exact absurd rfl hne
  | cons p tl ih =>
    intro fuel acc sp rest _ hfuel hsp
    obtain ⟨f, rfl⟩ : ∃ f, fuel = f + 1 := ⟨fuel - 1, by omega⟩
    have hkey : ∀ T : List Char,
        skipWs (sp ++ (dumpJString p.1 ++ T)) =
          '"' :: ((p.1.data.map encodeChar).flatten ++ '"' :: T) := by
      intro T
      rw [skipWs_ws_append _ _ hsp, dumpJString_append]
      exact skipWs_not_ws (by decide)
    have hklen : ∀ T : List Char, p.1.data.length + 1 ≤
        ((p.1.data.map encodeChar).flatten ++ '"' :: T).length + 1 := by
      intro T
      have := length_le_length_flattenEnc p.1.data
      simp only [List.length_append, List.length_cons]
      omega
    cases tl with
    | nil =>
      have hshape : sp ++ joinComma ([p].map dumpEntry) ++ rbrace :: rest =
          sp ++ (dumpJString p.1 ++ ':' :: ' ' :: (dumpJString p.2 ++ rbrace :: rest)) := by
        simp [joinComma, dumpEntry, List.append_assoc]
      rw [hshape]
      simp only [parseCore]
      rw [hkey, headCase_cons]
      simp only []
      rw [if_pos trivial, parseStringAux_enc p.1.data _ _ (hklen _)]
      simp only [onOk_ok]
      rw [skipWs_not_ws (by decide), headCase_cons]
      simp only []
      rw [if_pos trivial]
      have hval := parseCore_value_string f [' '] p.2 (rbrace :: rest)
        (by simp at hfuel; omega)
        (by intro c hc; simp at hc; subst hc; decide)
      rw [List.singleton_append] at hval
      rw [hval]
      simp only [onOk_ok]
      rw [skipWs_not_ws (by decide), headCase_cons]
      simp only []
      rw [if_neg (by decide), if_pos trivial]
      rfl
    | cons q tl2 =>
      have hshape : sp ++ joinComma ((p :: q :: tl2).map dumpEntry) ++ rbrace :: rest =
          sp ++ (dumpJString p.1 ++ ':' :: ' ' :: (dumpJString p.2 ++
            ',' :: ' ' :: (joinComma ((q :: tl2).map dumpEntry) ++ rbrace :: rest))) := by
        simp [joinComma, dumpEntry, List.append_assoc]
      rw [hshape]
      simp only [parseCore]
      rw [hkey, headCase_cons]
      simp only []
      rw [if_pos trivial, parseStringAux_enc p.1.data _ _ (hklen _)]
      simp only [onOk_ok]
      rw [skipWs_not_ws (by decide), headCase_cons]
      simp only []
      rw [if_pos trivial]
      have hval := parseCore_value_string f [' ']
        p.2 (',' :: ' ' :: (joinComma ((q :: tl2).map dumpEntry) ++ rbrace :: rest))
        (by simp at hfuel; omega)
        (by intro c hc; simp at hc; subst hc; decide)
      rw [List.singleton_append] at hval
      rw [hval]
      simp only [onOk_ok]
      rw [skipWs_not_ws (by decide), headCase_cons]
      simp only []
      rw [if_pos trivial]
      have hih := ih f (sInsert acc (⟨p.1.data⟩ : String) (.pyStr p.2)) [' '] rest
        (by simp) (by simp at hfuel ⊢; omega)
        (by intro c hc; simp at hc; subst hc; decide)
      rw [List.append_assoc, List.singleton_append] at hih
      rw [hih]
      rfl

theorem dumpEntry_one_le_length (p : String × String) : 1 ≤ (dumpEntry p).length := by
  simp [dumpEntry, dumpJString]

theorem length_le_joinComma (es : Entries) :
    es.length ≤ (joinComma (es.map dumpEntry)).length := by
  induction es with
  | nil => simp [joinComma]
  | cons p tl ih =>
    cases tl with
    | nil =>
      simp only [List.map_cons, List.map_nil, joinComma, List.length_cons, List.length_nil]
      have := dumpEntry_one_le_length p
      omega
    | cons q tl2 =>
      rw [show joinComma ((p :: q :: tl2).map dumpEntry) =
        dumpEntry p ++ ',' :: ' ' :: joinComma ((q :: tl2).map dumpEntry) from rfl]
      simp only [List.length_append, List.length_cons] at ih ⊢
      omega

theorem joinComma_cons_head (p : String × String) (tl : Entries) (R : List Char) :
    ∃ Y, joinComma ((p :: tl).map dumpEntry) ++ R = '"' :: Y := by
  cases tl with
  | nil =>
    rw [show joinComma ([p].map dumpEntry) = dumpEntry p from rfl]
    unfold dumpEntry
    rw [List.append_assoc, dumpJString_append]
    exact ⟨_, rfl⟩
  | cons q tl2 =>
    rw [show joinComma ((p :: q :: tl2).map dumpEntry) =
      dumpEntry p ++ ',' :: ' ' :: joinComma ((q :: tl2).map dumpEntry) from rfl]
    unfold dumpEntry
    rw [List.append_assoc, List.append_assoc, dumpJString_append]
    exact ⟨_, rfl⟩

theorem insertByKey_perm (p : String × String) (l : Entries) :
    (insertByKey p l).Perm (p :: l) := by
  induction l with
  | nil => exact List.Perm.refl _
  | cons q rest ih =>
    unfold insertByKey
    by_cases h : p.1 ≤ q.1
    · rw [if_pos h]
    · rw [if_neg h]
      exact (ih.cons q).trans (List.Perm.swap p q rest)

theorem sortByKey_perm (es : Entries) : (sortByKey es).Perm es := by
  induction es with
  | nil => exact List.Perm.refl _
  | cons p rest ih =>
    exact (insertByKey_perm p (sortByKey rest)).trans (ih.cons p)

theorem sortByKey_length (es : Entries) : (sortByKey es).length = es.length :=
  (sortByKey_perm es).length_eq

/-- Parsing the output of `json.dumps(d, sort_keys=True)` recovers the key-sorted
entries of `d` (accumulated through dict insertion, as the decoder builds them). -/
theorem json_loads_dumpSortedDict (es : Entries) :
    json_loads (dumpSortedDict es) =
      .ok (.pyDict ((sortByKey es).foldl (fun a p => sInsert a p.1 (.pyStr p.2)) [])) := by
  unfold json_loads dumpSortedDict
  rw [show (⟨lbrace :: joinComma ((sortByKey es).map dumpEntry) ++ [rbrace]⟩ : String).data =
    lbrace :: joinComma ((sortByKey es).map dumpEntry) ++ [rbrace] from rfl]
  rw [show (2 * (lbrace :: joinComma ((sortByKey es).map dumpEntry) ++ [rbrace]).length + 4) =
    (2 * (joinComma ((sortByKey es).map dumpEntry)).length + 7) + 1 by simp; omega]
  rw [show lbrace :: joinComma ((sortByKey es).map dumpEntry) ++ [rbrace] =
    lbrace :: (joinComma ((sortByKey es).map dumpEntry) ++ [rbrace]) from rfl]
  have hFb : (sortByKey es).length + 1 ≤
      2 * (joinComma ((sortByKey es).map dumpEntry)).length + 7 := by
    have := length_le_joinComma (sortByKey es)
    omega
  generalize hF : 2 * (joinComma ((sortByKey es).map dumpEntry)).length + 7 = F
  rw [hF] at hFb
  simp only [parseCore]
  rw [skipWs_not_ws (by decide), headCase_cons]
  simp only []
  rw [if_neg (by decide), if_pos trivial]
  cases hs : sortByKey es with
  | nil =>
    rw [show joinComma (([] : Entries).map dumpEntry) ++ [rbrace] = [rbrace] from rfl]
    rw [skipWs_not_ws (by decide), headCase_cons]
    simp only []
    rw [if_pos trivial]
    simp only [onOk_ok, List.foldl_nil]
    rw [if_pos (by decide)]
  | cons p tl =>
    obtain ⟨Y, hY⟩ := joinComma_cons_head p tl [rbrace]
    rw [hY, skipWs_not_ws (by decide), headCase_cons]
    rw [if_neg (by decide)]
    have hm := parseCore_members (p :: tl) F [] [] [] (by simp)
      (by rw [hs] at hFb; exact hFb) (by intro c hc; simp at hc)
    rw [List.nil_append] at hm
    rw [show joinComma ((p :: tl).map dumpEntry) ++ rbrace :: ([] : List Char) =
      joinComma ((p :: tl).map dumpEntry) ++ [rbrace] from rfl, hY] at hm
    rw [hm]
    simp only [onOk_ok]
    rw [if_pos (by decide)]

/- ===================== insertion and sorting lemmas ===================== -/

theorem sortByKey_pairwise (es : Entries) :
    (sortByKey es).Pairwise (fun a b => a.1 ≤ b.1) := by
  have hstep : ∀ (p : String × String) (l : Entries),
      l.Pairwise (fun a b => a.1 ≤ b.1) →
      (insertByKey p l).Pairwise (fun a b => a.1 ≤ b.1) := by
    intro p l
    induction l with
    | nil =>
      intro _
      simp [insertByKey]
    | cons q rest ih =>
      intro h
      rw [List.pairwise_cons] at h
      unfold insertByKey
      by_cases hle : p.1 ≤ q.1
      · rw [if_pos hle]
        refine List.Pairwise.cons ?_ (List.Pairwise.cons h.1 h.2)
        intro x hx
        rcases List.mem_cons.mp hx with rfl | hx'
        · exact hle
        · exact le_trans hle (h.1 x hx')
      · rw [if_neg hle]
        refine List.Pairwise.cons ?_ (ih h.2)
        intro x hx
        rcases List.mem_cons.mp ((insertByKey_perm p rest).mem_iff.mp hx) with rfl | hx'
        · exact le_of_not_le hle
        · exact h.1 x hx'
  induction es with
  | nil => exact List.Pairwise.nil
  | cons p rest ih => exact hstep p (sortByKey rest) ih

theorem sortByKey_keys_nodup {es : Entries} (h : (es.map Prod.fst).Nodup) :
    ((sortByKey es).map Prod.fst).Nodup :=
  ((sortByKey_perm es).map Prod.fst).nodup_iff.mpr h

theorem sortByKey_pairwise_lt {es : Entries} (h : (es.map Prod.fst).Nodup) :
    (sortByKey es).Pairwise (fun a b => a.1 < b.1) := by
  have h1 := sortByKey_pairwise es
  have h2 : (sortByKey es).Pairwise (fun a b => a.1 ≠ b.1) :=
    List.pairwise_map.mp (sortByKey_keys_nodup h)
  exact (h1.and h2).imp fun hab => lt_of_le_of_ne hab.1 hab.2

theorem mem_sortByKey {es : Entries} {x : String × String} :
    x ∈ sortByKey es ↔ x ∈ es := (sortByKey_perm es).mem_iff

theorem sInsert_fresh {acc : List (String × PyValue)} {k : String} {v : PyValue}
    (h : ∀ q ∈ acc, (q.1 == k) = false) : sInsert acc k v = acc ++ [(k, v)] := by
  unfold sInsert
  rw [if_neg ?hn]
  case hn =>
    intro hc
    rw [List.any_eq_true] at hc
    obtain ⟨x, hx, hpx⟩ := hc
    rw [h x hx] at hpx
    exact absurd hpx (by decide)

theorem foldl_sInsert_fresh (es : Entries) : ∀ (acc : List (String × PyValue)),
    (∀ p ∈ es, ∀ q ∈ acc, (q.1 == p.1) = false) → (es.map Prod.fst).Nodup →
    es.foldl (fun a p => sInsert a p.1 (.pyStr p.2)) acc =
      acc ++ es.map (fun p => (p.1, .pyStr p.2)) := by
  induction es with
  | nil =>
    intro acc _ _
    simp
  | cons p tl ih =>
    intro acc hfresh hnodup
    simp only [List.map_cons, List.nodup_cons] at hnodup
    rw [List.foldl_cons, sInsert_fresh (fun q hq => hfresh p (by simp) q hq)]
    have hfr : ∀ x ∈ tl, ∀ q ∈ acc ++ [(p.1, PyValue.pyStr p.2)], (q.1 == x.1) = false := by
      intro x hx q hq
      rcases List.mem_append.mp hq with hq1 | hq2
      · exact hfresh x (by simp [hx]) q hq1
      · have hq' : q = (p.1, .pyStr p.2) := by simpa using hq2
        subst hq'
        simp only [beq_eq_false_iff_ne, ne_eq]
        intro he
        exact hnodup.1 (he ▸ List.mem_map_of_mem Prod.fst hx)
    have hstep := ih (acc ++ [(p.1, PyValue.pyStr p.2)]) hfr hnodup.2
    rw [hstep]
    simp

theorem udInsert_fresh {acc : UserDictData} {k v : PyValue}
    (h : ∀ q ∈ acc, pyKeyEq q.1 k = false) : udInsert acc k v = acc ++ [(k, v)] := by
  unfold udInsert
  rw [if_neg ?hn]
  case hn =>
    intro hc
    rw [List.any_eq_true] at hc
    obtain ⟨x, hx, hpx⟩ := hc
    rw [h x hx] at hpx
    exact absurd hpx (by decide)

theorem foldl_udInsert_fresh (es : List (String × PyValue)) : ∀ (acc : UserDictData),
    (∀ p ∈ es, ∀ q ∈ acc, pyKeyEq q.1 (.pyStr p.1) = false) → (es.map Prod.fst).Nodup →
    es.foldl (fun a p => udInsert a (.pyStr p.1) p.2) acc =
      acc ++ es.map (fun p => (.pyStr p.1, p.2)) := by
  induction es with
  | nil =>
    intro acc _ _
    simp
  | cons p tl ih =>
    intro acc hfresh hnodup
    simp only [List.map_cons, List.nodup_cons] at hnodup
    rw [List.foldl_cons, udInsert_fresh (fun q hq => hfresh p (by simp) q hq)]
    have hfr : ∀ x ∈ tl, ∀ q ∈ acc ++ [(PyValue.pyStr p.1, p.2)],
        pyKeyEq q.1 (PyValue.pyStr x.1) = false := by
      intro x hx q hq
      rcases List.mem_append.mp hq with hq1 | hq2
      · exact hfresh x (by simp [hx]) q hq1
      · have hq' : q = (.pyStr p.1, p.2) := by simpa using hq2
        subst hq'
        show (p.1 == x.1) = false
        simp only [beq_eq_false_iff_ne, ne_eq]
        intro he
        exact hnodup.1 (he ▸ List.mem_map_of_mem Prod.fst hx)
    have hstep := ih (acc ++ [(PyValue.pyStr p.1, p.2)]) hfr hnodup.2
    rw [hstep]
    simp

theorem udFromStrKeyed_nodup {es : List (String × PyValue)} (h : (es.map Prod.fst).Nodup) :
    udFromStrKeyed es = es.map (fun p => (.pyStr p.1, p.2)) := by
  unfold udFromStrKeyed
  rw [foldl_udInsert_fresh es [] (by intro p _ q hq; simp at hq) h, List.nil_append]

/- ===================== dict lookup and equality lemmas ===================== -/

theorem mem_keys_of_dget {d : Entries} {k : String} {v : String} (h : dget d k = some v) :
    k ∈ d.map Prod.fst := by
  unfold dget at h
  cases hf : d.find? (fun p => p.1 == k) with
  | none => rw [hf] at h; simp at h
  | some q =>
    have hq : q.1 = k := by simpa using List.find?_some hf
    exact hq ▸ List.mem_map_of_mem Prod.fst (List.mem_of_find?_eq_some hf)

theorem dget_eq_none_of_not_mem {d : Entries} {k : String} (h : k ∉ d.map Prod.fst) :
    dget d k = none := by
  unfold dget
  rw [List.find?_eq_none.mpr ?_]
  · rfl
  · intro x hx hc
    have : x.1 = k := by simpa using hc
    exact h (this ▸ List.mem_map_of_mem Prod.fst hx)

theorem dictEqB_iff {d e : Entries} : dictEqB d e = true ↔ ∀ k, dget d k = dget e k := by
  constructor
  · intro h k
    rw [dictEqB, Bool.and_eq_true] at h
    obtain ⟨h1, h2⟩ := h
    rw [List.all_eq_true] at h1 h2
    cases hd : dget d k with
    | some v =>
      have := eq_of_beq (h1 k (mem_keys_of_dget hd))
      rw [hd] at this
      exact this
    | none =>
      cases he : dget e k with
      | none => rfl
      | some w =>
        have := eq_of_beq (h2 k (mem_keys_of_dget he))
        rw [hd, he] at this
        exact this
  · intro h
    rw [dictEqB, Bool.and_eq_true]
    refine ⟨?_, ?_⟩ <;>
      · rw [List.all_eq_true]
        intro k _
        simp [h k]

/- ===================== serialization-level lemmas ===================== -/

theorem truthyEntries_keys_nodup {d : Entries} (h : (d.map Prod.fst).Nodup) :
    ((truthyEntries d).map Prod.fst).Nodup :=
  h.sublist ((List.filter_sublist d).map Prod.fst)

theorem json_loads_dumpSortedDict_nodup {es : Entries} (h : (es.map Prod.fst).Nodup) :
    json_loads (dumpSortedDict es) =
      .ok (.pyDict ((sortByKey es).map fun p => (p.1, PyValue.pyStr p.2))) := by
  rw [json_loads_dumpSortedDict,
    foldl_sInsert_fresh _ [] (by intro p _ q hq; simp at hq) (sortByKey_keys_nodup h),
    List.nil_append]

theorem mem_sortMap {es : Entries} {k v : String} :
    (k, PyValue.pyStr v) ∈ ((sortByKey es).map fun p => (p.1, PyValue.pyStr p.2)) ↔
      (k, v) ∈ es := by
  rw [List.mem_map]
  constructor
  · rintro ⟨p, hp, hpe⟩
    have h1 : p.1 = k ∧ p.2 = v := by simpa [Prod.ext_iff] using hpe
    have hp' : p = (k, v) := by
      obtain ⟨ha, hb⟩ := h1
      exact Prod.ext ha hb
    exact hp' ▸ mem_sortByKey.mp hp
  · intro hmem
    exact ⟨(k, v), mem_sortByKey.mpr hmem, rfl⟩

theorem pairwise_sortMap {es : Entries} (h : (es.map Prod.fst).Nodup) :
    ((sortByKey es).map fun p => (p.1, PyValue.pyStr p.2)).Pairwise
      (fun a b => a.1 < b.1) := by
  rw [List.pairwise_map]
  exact sortByKey_pairwise_lt h

theorem json_loads_prepDict {d : Entries} (h : (d.map Prod.fst).Nodup) :
    json_loads (prepDict d) = .ok (.pyDict (dictReprOf d)) :=
  json_loads_dumpSortedDict_nodup (truthyEntries_keys_nodup h)

theorem mem_dictReprOf {d : Entries} {k v : String} :
    (k, PyValue.pyStr v) ∈ dictReprOf d ↔ ((k, v) ∈ d ∧ truthy v = true) := by
  unfold dictReprOf
  rw [show (fun p : String × String => (p.1, PyValue.pyStr p.2)) =
    (fun p : String × String => (p.1, PyValue.pyStr p.2)) from rfl]
  rw [mem_sortMap]
  unfold truthyEntries
  rw [List.mem_filter]

theorem proxyEntries_keys (L : List (String × String)) (tr : String → String → String)
    (g : String) :
    (proxyEntries L tr g).map Prod.fst =
      (L.map Prod.fst).filter (fun lng => truthy (tr g lng)) := by
  unfold proxyEntries
  generalize L.map Prod.fst = codes
  induction codes with
  | nil => rfl
  | cons a t ih =>
    rw [List.filterMap_cons, List.filter_cons]
    by_cases hp : truthy (tr g a) = true
    · rw [if_pos hp, if_pos hp, List.map_cons, ih]
    · have hp' : truthy (tr g a) = false := by simpa using hp
      rw [if_neg (by simp [hp']), if_neg (by simp [hp']), ih]

theorem proxyEntries_keys_nodup {L : List (String × String)} {tr : String → String → String}
    {g : String} (h : (L.map Prod.fst).Nodup) :
    ((proxyEntries L tr g).map Prod.fst).Nodup := by
  rw [proxyEntries_keys]
  exact h.filter _

theorem mem_proxyEntries {L : List (String × String)} {tr : String → String → String}
    {g k v : String} :
    (k, v) ∈ proxyEntries L tr g ↔
      (k ∈ L.map Prod.fst ∧ truthy (tr g k) = true ∧ v = tr g k) := by
  unfold proxyEntries
  rw [List.mem_filterMap]
  constructor
  · rintro ⟨a, ha, hav⟩
    by_cases hp : truthy (tr g a) = true
    · rw [if_pos hp] at hav
      have h1 : a = k ∧ tr g a = v := by simpa [Prod.ext_iff] using hav
      obtain ⟨rfl, hv⟩ := h1
      exact ⟨ha, hp, hv.symm⟩
    · rw [if_neg hp] at hav
      exact absurd hav (by simp)
  · rintro ⟨hk, hp, rfl⟩
    exact ⟨k, hk, by rw [if_pos hp]⟩

theorem json_loads_prepProxy {L : List (String × String)} {tr : String → String → String}
    {g : String} (h : (L.map Prod.fst).Nodup) :
    json_loads (prepProxy L tr g) = .ok (.pyDict (proxyReprOf L tr g)) :=
  json_loads_dumpSortedDict_nodup (proxyEntries_keys_nodup h)

theorem construct_dictInput {es : Entries} (h : (es.map Prod.fst).Nodup) :
    construct (.dictInput es) = .ok (strEntries es) := by
  show Except.ok (udFromStrKeyed (es.map fun p => (p.1, PyValue.pyStr p.2))) = _
  rw [udFromStrKeyed_nodup (by simpa using h)]
  unfold strEntries
  rw [List.map_map]
  rfl

/- ===================== claims ===================== -/

/-- C1: for every instance backed by a (possibly empty) mapping and every
requested locale, `localize` returns exactly the first match of the specified
priority cascade — exact locale if truthy, then base, then the first truthy
region-sibling in insertion order, then the system default locale, then the
first truthy value anywhere, then the empty string (and the empty string
immediately for an empty mapping) — as captured by `specLocalize`. -/
theorem localize_priority_order (d : Entries) (languageCode lng : String) :
    localize (.dictData d) languageCode lng =
      .ok (some (specLocalize d languageCode lng)) := by
  show Except.ok (localizeDict d languageCode lng) = _
  rw [localizeDict_eq_spec]

/-- C2: when the requested locale and its base are falsy or absent and every
region-sibling value is falsy, `localize` selects no similar key and falls
through to the system-default step and then the first-truthy-value scan. -/
theorem falsy_siblings_fall_through (d : Entries) (languageCode lng : String)
    (hA : truthyGet d lng = false) (hB : truthyGet d (pyBase lng) = false)
    (hne : specSimilar d lng ≠ []) (hfalsy : ∀ k ∈ specSimilar d lng, truthyGet d k = false) :
    localizeDict d languageCode lng =
      some (if truthyGet d languageCode then (dget d languageCode).getD ""
        else firstTruthyValue d) := by
  rw [localizeDict_eq_spec]
  have hdne : d.isEmpty = false := by
    cases d with
    | nil => exact absurd rfl hne
    | cons a t => rfl
  have hfind : (specSimilar d lng).find? (truthyGet d) = none :=
    List.find?_eq_none.mpr (fun x hx => by rw [hfalsy x hx]; simp)
  unfold specLocalize
  rw [hdne, hA, hB, hfind]
  simp

theorem falsy_siblings_fall_through_witness :
    localizeDict [("de-AT", ""), ("fr", "Bonjour")] "en" "de-CH" = some "Bonjour" := by
  have h := falsy_siblings_fall_through [("de-AT", ""), ("fr", "Bonjour")] "en" "de-CH"
    (by decide) (by decide) (by decide) (by decide)
  rw [h]
  decide

/-- C3, counterexample: the string `"1"` parses as JSON (the integer 1, not an
object), and `UserDict.__init__` then raises `TypeError` — construction does
not degrade to the `_naive` case and the exception escapes. -/
theorem construct_raises_on_nonobject_json :
    construct (.strInput "1") = .error .typeError := rfl

/-- C3, amended: construction from `None`, from a mapping, from a string that
parses as a JSON object, or from a string that fails to parse, never raises and
produces the specified backing; strings parsing to non-object JSON values are
outside the guarantee (they can raise, as the counterexample shows). -/
theorem construct_amended_behavior :
    construct .noneInput = .ok [] ∧
    (∀ es : Entries, (es.map Prod.fst).Nodup →
      construct (.dictInput es) = .ok (strEntries es)) ∧
    (∀ (s : String) (es : List (String × PyValue)),
      json_loads s = .ok (.pyDict es) → (es.map Prod.fst).Nodup →
      construct (.strInput s) = .ok (es.map fun p => (.pyStr p.1, p.2))) ∧
    (∀ (s : String) (e : PyExn), json_loads s = .error e →
      construct (.strInput s) = .ok [(.pyStr "_naive", .pyStr s)]) := by
  refine ⟨rfl, fun es h => construct_dictInput h, ?_, ?_⟩
  · intro s es hjson hnodup
    show (match json_loads s with
      | Except.error _ => Except.ok [(PyValue.pyStr "_naive", PyValue.pyStr s)]
      | Except.ok v => userDictInit v) = _
    rw [hjson]
    show Except.ok (udFromStrKeyed es) = _
    rw [udFromStrKeyed_nodup hnodup]
  · intro s e hjson
    show (match json_loads s with
      | Except.error _ => Except.ok [(PyValue.pyStr "_naive", PyValue.pyStr s)]
      | Except.ok v => userDictInit v) = _
    rw [hjson]

theorem construct_amended_behavior_witness :
    construct (.dictInput [("de", "Hallo")]) = .ok (strEntries [("de", "Hallo")]) ∧
    construct (.strInput "\x7b\x7d") = .ok [] ∧
    construct (.strInput "x") = .ok [(.pyStr "_naive", .pyStr "x")] := by
  refine ⟨construct_amended_behavior.2.1 [("de", "Hallo")] (by decide), ?_, ?_⟩
  · exact construct_amended_behavior.2.2.1 "\x7b\x7d" [] rfl (by decide)
  · exact construct_amended_behavior.2.2.2 "x" .valueError rfl

/-- C4 (code bug): `localize` on a mapping-backed instance always returns a
string — never an exception and never Python `None` — but on a deferred
`from_gettext` instance the body reaches `self.data.keys()`, which
`LazyGettextProxy` does not define, and raises `AttributeError` for every
requested locale. -/
theorem localize_total_on_dict_raises_on_proxy :
    (∀ (d : Entries) (languageCode lng : String), ∃ s : String,
      localize (.dictData d) languageCode lng = .ok (some s)) ∧
    (∀ (g languageCode lng : String),
      localize (.proxyData g) languageCode lng = .error .attributeError) := by
  refine ⟨fun d lc lng => ⟨specLocalize d lc lng, ?_⟩, fun g lc lng => rfl⟩
  show Except.ok (localizeDict d lc lng) = _
  rw [localizeDict_eq_spec]

/-- C5: serialization of a mapping-backed value is a JSON object holding exactly
the truthy locale→value pairs with keys sorted lexicographically (strictly
increasing), and serialization of a deferred value holds one key per supported
locale whose rendering is truthy, mapped to that rendering, keys sorted. -/
theorem get_prep_value_serializes_truthy_sorted
    (LANGUAGES : List (String × String)) (tr : String → String → String)
    (d : Entries) (g : String) :
    get_prep_value LANGUAGES tr (.lazyVal (.dictData d)) = some (prepDict d) ∧
    ((d.map Prod.fst).Nodup →
      json_loads (prepDict d) = .ok (.pyDict (dictReprOf d)) ∧
      (dictReprOf d).Pairwise (fun a b => a.1 < b.1) ∧
      (∀ k v : String, (k, PyValue.pyStr v) ∈ dictReprOf d ↔
        ((k, v) ∈ d ∧ truthy v = true))) ∧
    get_prep_value LANGUAGES tr (.lazyVal (.proxyData g)) =
      some (prepProxy LANGUAGES tr g) ∧
    ((LANGUAGES.map Prod.fst).Nodup →
      json_loads (prepProxy LANGUAGES tr g) = .ok (.pyDict (proxyReprOf LANGUAGES tr g)) ∧
      (proxyReprOf LANGUAGES tr g).Pairwise (fun a b => a.1 < b.1) ∧
      (∀ k v : String, (k, PyValue.pyStr v) ∈ proxyReprOf LANGUAGES tr g ↔
        (k ∈ LANGUAGES.map Prod.fst ∧ truthy (tr g k) = true ∧ v = tr g k))) := by
  refine ⟨rfl, fun h => ⟨json_loads_prepDict h, ?_, fun k v => mem_dictReprOf⟩,
    rfl, fun h => ⟨json_loads_prepProxy h, ?_, fun k v => ?_⟩⟩
  · exact pairwise_sortMap (truthyEntries_keys_nodup h)
  · exact pairwise_sortMap (proxyEntries_keys_nodup h)
  · unfold proxyReprOf
    rw [mem_sortMap, mem_proxyEntries]

theorem get_prep_value_serializes_truthy_sorted_witness :
    json_loads (prepDict [("en", "Hello"), ("de", "")]) =
      .ok (.pyDict [("en", .pyStr "Hello")]) ∧
    json_loads (prepProxy [("de", "German")] (fun g lng => g ++ lng) "X-") =
      .ok (.pyDict [("de", .pyStr "X-de")]) := by
  have h := get_prep_value_serializes_truthy_sorted [("de", "German")]
    (fun g lng => g ++ lng) [("en", "Hello"), ("de", "")] "X-"
  exact ⟨(h.2.1 (by decide)).1, (h.2.2.2 (by decide)).1⟩

/-- C6: re-parsing the serialized storage form of a mapping-backed instance
yields a backing whose truthy entries are exactly the original's truthy entries
(falsy entries are dropped), every entry of the result being a truthy
string-to-string pair. -/
theorem prep_construct_roundtrip (d : Entries) (h : (d.map Prod.fst).Nodup) :
    construct (.strInput (prepDict d)) = .ok (udReprOf d) ∧
    (∀ k v : String, (PyValue.pyStr k, PyValue.pyStr v) ∈ udReprOf d ↔
      ((k, v) ∈ d ∧ truthy v = true)) ∧
    (∀ q ∈ udReprOf d, ∃ k v : String,
      q = (PyValue.pyStr k, PyValue.pyStr v) ∧ truthy v = true) := by
  refine ⟨?_, ?_, ?_⟩
  · show (match json_loads (prepDict d) with
      | Except.error _ => Except.ok [(PyValue.pyStr "_naive", PyValue.pyStr (prepDict d))]
      | Except.ok v => userDictInit v) = _
    rw [json_loads_prepDict h]
    show Except.ok (udFromStrKeyed (dictReprOf d)) = _
    have hnd : ((dictReprOf d).map Prod.fst).Nodup := by
      unfold dictReprOf
      rw [List.map_map]
      exact sortByKey_keys_nodup (truthyEntries_keys_nodup h)
    rw [udFromStrKeyed_nodup hnd]
    unfold udReprOf dictReprOf
    rw [List.map_map]
    rfl
  · intro k v
    unfold udReprOf
    rw [List.mem_map]
    constructor
    · rintro ⟨p, hp, hpe⟩
      have h1 : p.1 = k ∧ p.2 = v := by simpa [Prod.ext_iff] using hpe
      have hp' : p = (k, v) := Prod.ext h1.1 h1.2
      subst hp'
      have := mem_sortByKey.mp hp
      exact List.mem_filter.mp this
    · rintro ⟨hmem, htr⟩
      exact ⟨(k, v), mem_sortByKey.mpr (List.mem_filter.mpr ⟨hmem, htr⟩), rfl⟩
  · intro q hq
    unfold udReprOf at hq
    rw [List.mem_map] at hq
    obtain ⟨p, hp, rfl⟩ := hq
    have := List.mem_filter.mp (mem_sortByKey.mp hp)
    exact ⟨p.1, p.2, rfl, this.2⟩

theorem prep_construct_roundtrip_witness :
    construct (.strInput (prepDict [("de", "Hallo"), ("en", "")])) =
      .ok (udReprOf [("de", "Hallo"), ("en", "")]) := by
  exact (prep_construct_roundtrip [("de", "Hallo"), ("en", "")] (by decide)).1

/-- C7: an instance is falsy iff its backing mapping is empty or every value in
it is the empty string; a deferred (proxy-backed) instance is always truthy. -/
theorem bool_truthiness :
    (∀ d : Entries,
      (lazyBool (.dictData d) = false ↔ (d = [] ∨ ∀ v ∈ d.map Prod.snd, v = ""))) ∧
    (∀ g : String, lazyBool (.proxyData g) = true) := by
  refine ⟨fun d => ?_, fun g => rfl⟩
  show (if d.isEmpty then false else (d.map Prod.snd).any truthy) = false ↔ _
  by_cases hd : d.isEmpty = true
  · have hd' := List.isEmpty_iff.mp hd
    simp [hd, hd']
  · have hd' : d ≠ [] := by
      intro hc
      exact hd (by rw [hc]; rfl)
    have hd2 : d.isEmpty = false := by simpa using hd
    rw [hd2]
    simp only [Bool.false_eq_true, if_false]
    rw [List.any_eq_false]
    constructor
    · intro h
      right
      intro v hv
      have := h v hv
      unfold truthy at this
      simpa using this
    · rintro (rfl | h)
      · exact absurd rfl hd'
      · intro v hv
        unfold truthy
        simpa using h v hv

/-- C8: two mapping-backed instances compare equal exactly when their backing
dicts are equal as mappings; comparison against `None` or a value of another
builtin type returns false (the embedded `__eq__` is total — nothing raises). -/
theorem eq_semantics :
    (∀ d e : Entries,
      (lazyEq (.dictData d) (.lazyObj (.dictData e)) = true ↔ ∀ k, dget d k = dget e k)) ∧
    (∀ c : I18nContent, lazyEq c .pyNoneObj = false) ∧
    (∀ (c : I18nContent) (n : Int), lazyEq c (.intObj n) = false) ∧
    (∀ (c : I18nContent) (s : String), lazyEq c (.strObj s) = false) ∧
    (∀ (c : I18nContent) (b : Bool), lazyEq c (.boolObj b) = false) ∧
    (∀ (c : I18nContent) (xs : List String), lazyEq c (.listObj xs) = false) := by
  refine ⟨fun d e => ?_, fun c => rfl, fun c n => rfl, fun c s => rfl, fun c b => rfl,
    fun c xs => rfl⟩
  show dictEqB d e = true ↔ _
  exact dictEqB_iff

/-- C9: the deferred adapter's item lookup renders the source under the
requested locale with the ambient locale scoped: the prior active locale is
always restored, also when rendering raises, and a raised error propagates. -/
theorem getitem_restores_locale (render : String → String → Except PyExn String)
    (g item st : String) :
    (proxyGetitem render g item st).2 = st ∧
    (proxyGetitem render g item st).1 = render g item ∧
    (∀ e, render g item = .error e → proxyGetitem render g item st = (.error e, st)) := by
  cases hr : render g item with
  | ok v =>
    have heq : proxyGetitem render g item st = (.ok v, st) := by
      simp [proxyGetitem, withOverride, hr]
    rw [heq]
    exact ⟨rfl, rfl, fun e he => absurd he (by simp)⟩
  | error e =>
    have heq : proxyGetitem render g item st = (.error e, st) := by
      simp [proxyGetitem, withOverride, hr]
    rw [heq]
    refine ⟨rfl, rfl, fun e2 he => ?_⟩
    have : e = e2 := by simpa using he
    rw [this]

theorem getitem_restores_locale_witness :
    proxyGetitem (fun _ _ => .error .valueError) "src" "de" "en" =
      (.error .valueError, "en") :=
  (getitem_restores_locale (fun _ _ => .error .valueError) "src" "de" "en").2.2
    .valueError rfl

/-- C10: an instance constructed from a mapping stores it as-is and compares
equal (`==`) to the plain mapping itself, although the operand is not a
`LazyI18nString`. -/
theorem constructed_equals_raw_mapping (m : Entries) (h : (m.map Prod.fst).Nodup) :
    construct (.dictInput m) = .ok (strEntries m) ∧
    lazyEq (.dictData m) (.dictObj m) = true := by
  refine ⟨construct_dictInput h, ?_⟩
  show dictEqB m m = true
  exact dictEqB_iff.mpr (fun k => rfl)

theorem constructed_equals_raw_mapping_witness :
    construct (.dictInput [("de", "Hallo")]) = .ok (strEntries [("de", "Hallo")]) ∧
    lazyEq (.dictData [("de", "Hallo")]) (.dictObj [("de", "Hallo")]) = true :=
  constructed_equals_raw_mapping [("de", "Hallo")] (by decide)

end I18n
